import Mathlib

/-! Shallow embedding of the math-jit core (`src/src/lib.rs`): the
`ExecutableMemory` byte buffer with its write/patch/execute operations and the
`JITCalculator` add routine built on top of it.  Machine integers are modelled
as `Nat` with explicit `% 2 ^ 64` where 64-bit overflow matters; the panic of a
Rust slice-indexing failure is modelled as `none`; the platform (anonymous
mapping, protection change, invocation) is modelled by an explicit event trace
so that allocation and protection transitions are observable. -/

/-- Memory-protection state of a mapped region (`memmap::Protection`). -/
inductive Prot where
  | ReadWrite
  | ReadExecute
deriving DecidableEq, Repr

/-- `ExecutableMemory`: the logical code bytes plus the `memory_map` field of
the source struct.  No operation of the source ever assigns that field (the
local `memory_map` in `execute` shadows nothing and is dropped), so it stays
`none` throughout. -/
structure ExecutableMemory where
  code : List Nat
  memory_map : Option (List Nat × Prot)
deriving DecidableEq, Repr

def ExecutableMemory.new : ExecutableMemory := ⟨[], none⟩

def ExecutableMemory.clear_mem (em : ExecutableMemory) : ExecutableMemory :=
  { em with code := [] }

/-- `write_code`: push each byte of `code` onto the buffer. -/
def ExecutableMemory.write_code (em : ExecutableMemory) (code : List Nat) : ExecutableMemory :=
  { em with code := em.code ++ code }

/-- The effect of the `code.iter().zip(dst.iter_mut())` loop in `write_code_at`:
overwrite the front of `dst` with `code`, element by element, stopping when
either side runs out. -/
def overwriteZip : List Nat → List Nat → List Nat
  | src :: srcs, _ :: dsts => src :: overwriteZip srcs dsts
  | _, dsts => dsts

/-- `write_code_at`: the slice `self.code[position..]` panics (modelled as
`none`) when `position > len`; otherwise the zip loop overwrites
`min (code.length, len - position)` bytes starting at `position`. -/
def ExecutableMemory.write_code_at (em : ExecutableMemory) (code : List Nat)
    (position : Nat) : Option ExecutableMemory :=
  if position ≤ em.code.length then
    some { em with code := em.code.take position ++ overwriteZip code (em.code.drop position) }
  else
    none

/-- The eight bytes `b1..b8` computed by `write_u64`/`write_u64_at` from a
`u64` value by masking and shifting. -/
def u64le (num : Nat) : List Nat :=
  [num &&& 0xFF,
   (num &&& 0xFF00) >>> 0x08,
   (num &&& 0xFF0000) >>> 0x10,
   (num &&& 0xFF000000) >>> 0x18,
   (num &&& 0xFF00000000) >>> 0x20,
   (num &&& 0xFF0000000000) >>> 0x28,
   (num &&& 0xFF000000000000) >>> 0x30,
   (num &&& 0xFF00000000000000) >>> 0x38]

def ExecutableMemory.write_u64 (em : ExecutableMemory) (num : Nat) : ExecutableMemory :=
  em.write_code (u64le num)

def ExecutableMemory.write_u64_at (em : ExecutableMemory) (num : Nat)
    (position : Nat) : Option ExecutableMemory :=
  em.write_code_at (u64le num) position

/-- Register file for the tiny x86-64 fragment the JIT emits. -/
structure Regs where
  rax : Nat
  rbx : Nat
  rcx : Nat
  rdx : Nat
deriving DecidableEq, Repr

/-- Little-endian decode of an 8-byte immediate operand. -/
def leDecode8 (b1 b2 b3 b4 b5 b6 b7 b8 : Nat) : Nat :=
  b1 + 2 ^ 8 * b2 + 2 ^ 16 * b3 + 2 ^ 24 * b4 + 2 ^ 32 * b5 + 2 ^ 40 * b6 +
    2 ^ 48 * b7 + 2 ^ 56 * b8

/-- Interpreter for exactly the instructions the JIT emits (mov rax imm64,
mov rbx imm64, mov rcx [rax], mov rdx [rbx], add rcx rdx, mov rax rcx, ret).
`mem` maps an address to the u64 stored there; a 64-bit load truncates
mod `2 ^ 64`. -/
def run (mem : Nat → Nat) : List Nat → Regs → Option Nat
  | 0x48 :: 0xb8 :: b1 :: b2 :: b3 :: b4 :: b5 :: b6 :: b7 :: b8 :: rest, r =>
      run mem rest { r with rax := leDecode8 b1 b2 b3 b4 b5 b6 b7 b8 }
  | 0x48 :: 0xbb :: b1 :: b2 :: b3 :: b4 :: b5 :: b6 :: b7 :: b8 :: rest, r =>
      run mem rest { r with rbx := leDecode8 b1 b2 b3 b4 b5 b6 b7 b8 }
  | 0x48 :: 0x8b :: 0x08 :: rest, r => run mem rest { r with rcx := mem r.rax % 2 ^ 64 }
  | 0x48 :: 0x8b :: 0x13 :: rest, r => run mem rest { r with rdx := mem r.rbx % 2 ^ 64 }
  | 0x48 :: 0x01 :: 0xd1 :: rest, r => run mem rest { r with rcx := (r.rcx + r.rdx) % 2 ^ 64 }
  | 0x48 :: 0x89 :: 0xc8 :: rest, r => run mem rest { r with rax := r.rcx }
  | 0xc3 :: _, r => some r.rax
  | _, _ => none

/-- Observable platform events of one `execute` call, plus a marker for which
branch of `add` produced the call. -/
inductive Event where
  | alloc (size : Nat) (prot : Prot) (ok : Bool)
  | copyIn (bytes : List Nat)
  | setProt (prot : Prot) (ok : Bool)
  | invoke
  | emitTemplate
  | patchOperands
deriving DecidableEq, Repr

/-- Outcome of a call that may panic. -/
inductive ExecResult where
  | panicked
  | returned (v : Option Nat)
deriving DecidableEq, Repr

/-- `execute`: allocate a fresh anonymous ReadWrite region sized to the code
(`Mmap::anonymous(..).unwrap()` panics on failure), copy the logical bytes in,
call `set_protection(ReadExecute)` whose returned `Result` the source discards
(so `protOk` does not influence control flow), and invoke the region.  `self`
is only read, never written. -/
def ExecutableMemory.execute (em : ExecutableMemory) (mem : Nat → Nat)
    (allocOk protOk : Bool) : ExecutableMemory × ExecResult × List Event :=
  if allocOk then
    (em, .returned (run mem em.code ⟨0, 0, 0, 0⟩),
      [.alloc em.code.length .ReadWrite true, .copyIn em.code,
       .setProt .ReadExecute protOk, .invoke])
  else
    (em, .panicked, [.alloc em.code.length .ReadWrite false])

structure JITCalculator where
  add_code : ExecutableMemory
deriving DecidableEq, Repr

def JITCalculator.new : JITCalculator := ⟨ExecutableMemory.new⟩

/-- `JITCalculator::add`, with the operand addresses and the heap made
explicit.  On an empty buffer it emits the add template (mov-immediate address
operands at byte offsets 2 and 12) and executes; otherwise it patches the two
8-byte address immediates at offsets `0x02` and `0x0C` and executes again. -/
def JITCalculator.add (c : JITCalculator) (mem : Nat → Nat)
    (left_addr right_addr : Nat) (allocOk protOk : Bool) :
    JITCalculator × ExecResult × List Event :=
  if c.add_code.code.isEmpty then
    let em0 := c.add_code.write_code [0x48, 0xb8]
    let em1 := em0.write_u64 left_addr
    let em2 := em1.write_code [0x48, 0xbb]
    let em3 := em2.write_u64 right_addr
    let em4 := em3.write_code [0x48, 0x8b, 0x08]
    let em5 := em4.write_code [0x48, 0x8b, 0x13]
    let em6 := em5.write_code [0x48, 0x01, 0xd1]
    let em7 := em6.write_code [0x48, 0x89, 0xc8]
    let em8 := em7.write_code [0xc3]
    let r := em8.execute mem allocOk protOk
    (⟨r.1⟩, r.2.1, Event.emitTemplate :: r.2.2)
  else
    match c.add_code.write_u64_at left_addr 0x02 with
    | none => (c, .panicked, [Event.patchOperands])
    | some emA =>
      match emA.write_u64_at right_addr 0x0C with
      | none => (⟨emA⟩, .panicked, [Event.patchOperands])
      | some emB =>
        let r := emB.execute mem allocOk protOk
        (⟨r.1⟩, r.2.1, Event.patchOperands :: r.2.2)

/-- Standard little-endian decode of a byte list (the reading-back side of the
round-trip law stated by the specification). -/
def leDecodeList (l : List Nat) : Nat :=
  l.foldr (fun b acc => b + 256 * acc) 0

/-- The fixed non-operand tail of the add template. -/
def tailTemplate : List Nat :=
  [0x48, 0x8b, 0x08, 0x48, 0x8b, 0x13, 0x48, 0x01, 0xd1, 0x48, 0x89, 0xc8, 0xc3]

/-- The whole add template with operand addresses `la`, `ra` embedded. -/
def templateCode (la ra : Nat) : List Nat :=
  [0x48, 0xb8] ++ u64le la ++ ([0x48, 0xbb] ++ u64le ra ++ tailTemplate)

/-! ### Little-endian byte lemmas -/

theorem and_255_eq_mod (v : Nat) : v &&& 255 = v % 256 := by
  simpa using Nat.and_pow_two_sub_one_eq_mod v 8

theorem byteExtract (k v : Nat) : (v &&& 255 * 2 ^ k) / 2 ^ k = v / 2 ^ k % 256 := by
  induction k generalizing v with
  | zero => simpa using and_255_eq_mod v
  | succ k ih =>
    have e2 : (2 : Nat) ^ (k + 1) = 2 * 2 ^ k := by ring
    have e3 : (255 : Nat) * (2 * 2 ^ k) / 2 = 255 * 2 ^ k := by
      rw [show (255 : Nat) * (2 * 2 ^ k) = 255 * 2 ^ k * 2 from by ring,
        Nat.mul_div_cancel _ (by norm_num)]
    rw [e2, ← Nat.div_div_eq_div_mul, Nat.and_div_two, e3, ih (v / 2),
      Nat.div_div_eq_div_mul]

theorem u64le_eq (v : Nat) :
    u64le v = [v % 256, v / 2 ^ 8 % 256, v / 2 ^ 16 % 256, v / 2 ^ 24 % 256,
      v / 2 ^ 32 % 256, v / 2 ^ 40 % 256, v / 2 ^ 48 % 256, v / 2 ^ 56 % 256] := by
  unfold u64le
  simp only [Nat.shiftRight_eq_div_pow]
  rw [show (0xFF : Nat) = 255 from rfl,
    show (0xFF00 : Nat) = 255 * 2 ^ 8 from by norm_num,
    show (0xFF0000 : Nat) = 255 * 2 ^ 16 from by norm_num,
    show (0xFF000000 : Nat) = 255 * 2 ^ 24 from by norm_num,
    show (0xFF00000000 : Nat) = 255 * 2 ^ 32 from by norm_num,
    show (0xFF0000000000 : Nat) = 255 * 2 ^ 40 from by norm_num,
    show (0xFF000000000000 : Nat) = 255 * 2 ^ 48 from by norm_num,
    show (0xFF00000000000000 : Nat) = 255 * 2 ^ 56 from by norm_num,
    and_255_eq_mod, byteExtract, byteExtract, byteExtract, byteExtract,
    byteExtract, byteExtract, byteExtract]

theorem length_u64le (v : Nat) : (u64le v).length = 8 := by
  rw [u64le_eq]; rfl

theorem leDecode8_digits (v : Nat) (h : v < 2 ^ 64) :
    leDecode8 (v % 256) (v / 2 ^ 8 % 256) (v / 2 ^ 16 % 256) (v / 2 ^ 24 % 256)
      (v / 2 ^ 32 % 256) (v / 2 ^ 40 % 256) (v / 2 ^ 48 % 256) (v / 2 ^ 56 % 256) = v := by
  unfold leDecode8
  norm_num
  omega

theorem leDecodeList_u64le (v : Nat) (h : v < 2 ^ 64) : leDecodeList (u64le v) = v := by
  rw [u64le_eq]
  unfold leDecodeList
  simp only [List.foldr]
  have := leDecode8_digits v h
  unfold leDecode8 at this
  norm_num at this ⊢
  omega

/-! ### overwriteZip and write_code_at frame lemmas -/

theorem length_overwriteZip : ∀ (src dst : List Nat),
    (overwriteZip src dst).length = dst.length
  | _ :: srcs, _ :: dsts => by
    simp [overwriteZip, length_overwriteZip srcs dsts]
  | [], dsts => by cases dsts <;> simp [overwriteZip]
  | _ :: _, [] => by simp [overwriteZip]

theorem getElem?_overwriteZip_lt : ∀ (src dst : List Nat) (i : Nat),
    i < src.length → i < dst.length → (overwriteZip src dst)[i]? = src[i]?
  | s :: srcs, d :: dsts, 0, _, _ => by simp [overwriteZip]
  | s :: srcs, d :: dsts, i + 1, hs, hd => by
    simpa [overwriteZip] using
      getElem?_overwriteZip_lt srcs dsts i (by simpa using hs) (by simpa using hd)

theorem getElem?_overwriteZip_ge : ∀ (src dst : List Nat) (i : Nat),
    src.length ≤ i → (overwriteZip src dst)[i]? = dst[i]?
  | [], dsts, i, _ => by cases dsts <;> simp [overwriteZip]
  | s :: srcs, [], i, _ => by simp [overwriteZip]
  | s :: srcs, d :: dsts, i + 1, h => by
    simpa [overwriteZip] using getElem?_overwriteZip_ge srcs dsts i (by simpa using h)

/-- Frame characterization of `write_code_at` in the in-bounds case. -/
theorem write_code_at_spec (em : ExecutableMemory) (src : List Nat) (pos : Nat)
    (hpos : pos ≤ em.code.length) :
    ∃ out, em.write_code_at src pos = some out ∧
      out.memory_map = em.memory_map ∧
      out.code.length = em.code.length ∧
      (∀ i, i < pos → out.code[i]? = em.code[i]?) ∧
      (∀ i, pos ≤ i → i - pos < src.length → i < em.code.length →
        out.code[i]? = src[i - pos]?) ∧
      (∀ i, pos + src.length ≤ i → out.code[i]? = em.code[i]?) := by
  refine ⟨{ em with code := em.code.take pos ++ overwriteZip src (em.code.drop pos) },
    by simp [ExecutableMemory.write_code_at, hpos], rfl, ?_, ?_, ?_, ?_⟩
  · simp [length_overwriteZip, List.length_take, List.length_drop]
    omega
  · intro i hi
    rw [List.getElem?_append_left (by simp [List.length_take]; omega),
      List.getElem?_take_of_lt hi]
  · intro i hge hlt hlen
    rw [List.getElem?_append_right (by simp [List.length_take]; omega)]
    have htk : (em.code.take pos).length = pos := by
      simp [List.length_take]; omega
    rw [htk, getElem?_overwriteZip_lt _ _ _ hlt (by simp [List.length_drop]; omega)]
  · intro i hge
    rcases Nat.lt_or_ge i em.code.length with hlen | hlen
    · rw [List.getElem?_append_right (by simp [List.length_take]; omega)]
      have htk : (em.code.take pos).length = pos := by
        simp [List.length_take]; omega
      rw [htk, getElem?_overwriteZip_ge _ _ _ (by omega), List.getElem?_drop]
      congr 1
      omega
    · have h1 : em.code[i]? = none := by
        rw [List.getElem?_eq_none_iff]
        omega
      have h2 : (em.code.take pos ++ overwriteZip src (em.code.drop pos))[i]? = none := by
        rw [List.getElem?_eq_none_iff]
        simp [length_overwriteZip, List.length_take, List.length_drop]
        omega
      rw [h1, h2]

/-- Out-of-bounds slice start: `write_code_at` panics. -/
theorem write_code_at_oob (em : ExecutableMemory) (src : List Nat) (pos : Nat)
    (hpos : em.code.length < pos) :
    em.write_code_at src pos = none := by
  simp [ExecutableMemory.write_code_at]
  omega

/-! ### Template lemmas -/

theorem length_tailTemplate : tailTemplate.length = 13 := rfl

theorem length_templateCode (la ra : Nat) : (templateCode la ra).length = 33 := by
  simp [templateCode, tailTemplate, length_u64le]

/-- Running the emitted template computes the 64-bit sum of the two values the
operand addresses point to. -/
theorem run_template (mem : Nat → Nat) (la ra : Nat)
    (hla : la < 2 ^ 64) (hra : ra < 2 ^ 64) (r : Regs) :
    run mem (templateCode la ra) r =
      some ((mem la % 2 ^ 64 + mem ra % 2 ^ 64) % 2 ^ 64) := by
  rw [templateCode, u64le_eq la, u64le_eq ra]
  simp only [tailTemplate, List.cons_append, List.nil_append]
  simp only [run]
  rw [leDecode8_digits la hla, leDecode8_digits ra hra]

/-- First call on an empty buffer: emit the template, materialize, invoke. -/
theorem add_first_call (c : JITCalculator) (hc : c.add_code.code = [])
    (mem : Nat → Nat) (la ra : Nat) (pOk : Bool) :
    c.add mem la ra true pOk =
      (⟨⟨templateCode la ra, c.add_code.memory_map⟩⟩,
       .returned (run mem (templateCode la ra) ⟨0, 0, 0, 0⟩),
       [.emitTemplate, .alloc 33 .ReadWrite true, .copyIn (templateCode la ra),
        .setProt .ReadExecute pOk, .invoke]) := by
  obtain ⟨⟨code, mm⟩⟩ := c
  simp only at hc
  subst hc
  simp [JITCalculator.add, ExecutableMemory.write_code, ExecutableMemory.write_u64,
    ExecutableMemory.execute, templateCode, tailTemplate, length_u64le,
    List.append_assoc]

theorem patch_template_left (la ra la2 : Nat) (mm : Option (List Nat × Prot)) :
    (⟨templateCode la ra, mm⟩ : ExecutableMemory).write_u64_at la2 0x02 =
      some ⟨templateCode la2 ra, mm⟩ := by
  simp only [ExecutableMemory.write_u64_at, ExecutableMemory.write_code_at,
    templateCode, tailTemplate, u64le_eq, List.cons_append, List.nil_append]
  norm_num [overwriteZip]

theorem patch_template_right (la ra ra2 : Nat) (mm : Option (List Nat × Prot)) :
    (⟨templateCode la ra, mm⟩ : ExecutableMemory).write_u64_at ra2 0x0C =
      some ⟨templateCode la ra2, mm⟩ := by
  simp only [ExecutableMemory.write_u64_at, ExecutableMemory.write_code_at,
    templateCode, tailTemplate, u64le_eq, List.cons_append, List.nil_append]
  norm_num [overwriteZip]

/-- Subsequent call on a template-shaped buffer: patch both operand immediates
in place, re-materialize, invoke. -/
theorem add_patch_call (c : JITCalculator) (la0 ra0 : Nat)
    (mm : Option (List Nat × Prot)) (hc : c.add_code = ⟨templateCode la0 ra0, mm⟩)
    (mem : Nat → Nat) (la ra : Nat) (pOk : Bool) :
    c.add mem la ra true pOk =
      (⟨⟨templateCode la ra, mm⟩⟩,
       .returned (run mem (templateCode la ra) ⟨0, 0, 0, 0⟩),
       [.patchOperands, .alloc 33 .ReadWrite true, .copyIn (templateCode la ra),
        .setProt .ReadExecute pOk, .invoke]) := by
  obtain ⟨ac⟩ := c
  simp only at hc
  subst hc
  have hne : (templateCode la0 ra0).isEmpty = false := by
    rw [List.isEmpty_eq_false_iff_exists_mem]
    exact ⟨0x48, by simp [templateCode]⟩
  simp only [JITCalculator.add, hne, Bool.false_eq_true, if_false,
    patch_template_left, patch_template_right, ExecutableMemory.execute,
    length_templateCode, if_true]

theorem templateCode_segments (la ra : Nat) :
    (templateCode la ra).take 2 = [0x48, 0xb8] ∧
    ((templateCode la ra).drop 2).take 8 = u64le la ∧
    ((templateCode la ra).drop 10).take 2 = [0x48, 0xbb] ∧
    ((templateCode la ra).drop 12).take 8 = u64le ra ∧
    (templateCode la ra).drop 20 = tailTemplate := by
  refine ⟨?_, ?_, ?_, ?_, ?_⟩ <;>
    simp [templateCode, u64le_eq, tailTemplate]

theorem templateCode_outside_operands (la ra la2 ra2 i : Nat)
    (h : i < 2 ∨ (10 ≤ i ∧ i < 12) ∨ 20 ≤ i) :
    (templateCode la2 ra2)[i]? = (templateCode la ra)[i]? := by
  have esplit : ∀ x y : Nat, templateCode x y =
      ([0x48, 0xb8] ++ u64le x ++ ([0x48, 0xbb] ++ u64le y)) ++ tailTemplate := by
    intro x y
    simp [templateCode, List.append_assoc]
  have elen : ∀ x y : Nat,
      (([0x48, 0xb8] ++ u64le x ++ ([0x48, 0xbb] ++ u64le y)) : List Nat).length = 20 := by
    intro x y
    simp [length_u64le]
  rcases h with h | ⟨h1, h2⟩ | h
  · interval_cases i <;> simp [templateCode, u64le_eq]
  · interval_cases i <;> simp [templateCode, u64le_eq]
  · rw [esplit la2 ra2, esplit la ra,
      List.getElem?_append_right (by rw [elen]; omega),
      List.getElem?_append_right (by rw [elen]; omega), elen, elen]

/-! ### Claim theorems -/

/-- C1: calling `add` first with addresses of values 10 and 22 returns 32, and
calling it again on the same calculator with addresses holding 40 and 33
returns 73; the second call goes through the patch branch, so the template is
not re-emitted. -/
theorem add_patch_reexecute
    (la ra la2 ra2 : Nat) (mem1 mem2 : Nat → Nat)
    (hla : la < 2 ^ 64) (hra : ra < 2 ^ 64) (hla2 : la2 < 2 ^ 64) (hra2 : ra2 < 2 ^ 64)
    (h1 : mem1 la = 10) (h2 : mem1 ra = 22) (h3 : mem2 la2 = 40) (h4 : mem2 ra2 = 33) :
    (JITCalculator.new.add mem1 la ra true true).2.1 = .returned (some 32) ∧
    ((JITCalculator.new.add mem1 la ra true true).1.add mem2 la2 ra2 true true).2.1 =
      .returned (some 73) ∧
    ((JITCalculator.new.add mem1 la ra true true).1.add mem2 la2 ra2 true true).2.2.head? =
      some Event.patchOperands ∧
    Event.emitTemplate ∉
      ((JITCalculator.new.add mem1 la ra true true).1.add mem2 la2 ra2 true true).2.2 := by
  have e1 := add_first_call JITCalculator.new rfl mem1 la ra true
  have e2 := add_patch_call (⟨⟨templateCode la ra, none⟩⟩ : JITCalculator) la ra none rfl
    mem2 la2 ra2 true
  refine ⟨?_, ?_, ?_, ?_⟩
  · rw [e1]
    simp only [run_template mem1 la ra hla hra, h1, h2]
    norm_num
  · rw [e1]
    simp only [JITCalculator.new, ExecutableMemory.new] at e2 ⊢
    rw [e2]
    simp only [run_template mem2 la2 ra2 hla2 hra2, h3, h4]
    norm_num
  · rw [e1]
    simp only [JITCalculator.new, ExecutableMemory.new] at e2 ⊢
    rw [e2]
    rfl
  · rw [e1]
    simp only [JITCalculator.new, ExecutableMemory.new] at e2 ⊢
    rw [e2]
    simp

/-- Witness for C1 at concrete addresses 100 and 200 with concrete heaps. -/
theorem add_patch_reexecute_witness :
    (JITCalculator.new.add (fun a => if a = 100 then 10 else 22) 100 200 true true).2.1 =
      ExecResult.returned (some 32) :=
  (add_patch_reexecute 100 200 100 200 (fun a => if a = 100 then 10 else 22)
    (fun a => if a = 100 then 40 else 33) (by norm_num) (by norm_num) (by norm_num)
    (by norm_num) (by norm_num) (by norm_num) (by norm_num) (by norm_num)).1

/-- C2 counterexample: the second invocation of the same calculator performs a
new allocation and a new protection transition (while still computing the
correct sums), contradicting materialize-exactly-once. -/
theorem second_call_reallocates_cex :
    Event.alloc 33 Prot.ReadWrite true ∈
      (((JITCalculator.new.add (fun a => if a = 100 then 10 else 22) 100 200 true true).1.add
        (fun a => if a = 100 then 40 else 33) 100 200 true true).2.2) ∧
    Event.setProt Prot.ReadExecute true ∈
      (((JITCalculator.new.add (fun a => if a = 100 then 10 else 22) 100 200 true true).1.add
        (fun a => if a = 100 then 40 else 33) 100 200 true true).2.2) ∧
    ((JITCalculator.new.add (fun a => if a = 100 then 10 else 22) 100 200 true true).2.1 =
      ExecResult.returned (some 32)) ∧
    (((JITCalculator.new.add (fun a => if a = 100 then 10 else 22) 100 200 true true).1.add
        (fun a => if a = 100 then 40 else 33) 100 200 true true).2.1 =
      ExecResult.returned (some 73)) := by
  decide

/-- C2 (amended): the buffer is materialized on every execution, not once per
routine: each `add` call with a successful allocation — first or subsequent —
allocates a fresh ReadWrite region, copies the bytes in, and performs the
Writable to Executable transition again.  Subsequent calls patch the logical
buffer and then re-materialize. -/
theorem add_rematerializes_every_call (c : JITCalculator) (mem : Nat → Nat)
    (la ra : Nat) (pOk : Bool)
    (h : c.add_code.code = [] ∨ 12 ≤ c.add_code.code.length) :
    ∃ e n bytes, (c.add mem la ra true pOk).2.2 =
      [e, Event.alloc n Prot.ReadWrite true, Event.copyIn bytes,
       Event.setProt Prot.ReadExecute pOk, Event.invoke] := by
  rcases h with h | h
  · rw [add_first_call c h mem la ra pOk]
    exact ⟨Event.emitTemplate, 33, templateCode la ra, rfl⟩
  · obtain ⟨ac⟩ := c
    simp only at h
    have hne : ac.code.isEmpty = false := by
      cases hcc : ac.code with
      | nil => rw [hcc] at h; simp at h
      | cons x xs => simp
    have h2 : (2 : Nat) ≤ ac.code.length := by omega
    simp only [JITCalculator.add, hne, Bool.false_eq_true, if_false,
      ExecutableMemory.write_u64_at, ExecutableMemory.write_code_at, h2, if_true,
      ExecutableMemory.execute]
    have hl1 : (ac.code.take 2 ++ overwriteZip (u64le la) (ac.code.drop 2)).length =
        ac.code.length := by
      simp [length_overwriteZip]
      omega
    have h12 : (12 : Nat) ≤
        (ac.code.take 2 ++ overwriteZip (u64le la) (ac.code.drop 2)).length := by
      omega
    simp only [h12, if_true]
    exact ⟨Event.patchOperands, _, _, rfl⟩

/-- Witness for the amended C2 on the first-call branch. -/
theorem add_rematerializes_every_call_witness :
    ∃ e n bytes, (JITCalculator.new.add (fun _ => 0) 1 2 true true).2.2 =
      [e, Event.alloc n Prot.ReadWrite true, Event.copyIn bytes,
       Event.setProt Prot.ReadExecute true, Event.invoke] :=
  add_rematerializes_every_call JITCalculator.new (fun _ => 0) 1 2 true (Or.inl rfl)

/-- C3: the first call emits the 8-byte little-endian left-address immediate at
byte offset 2 and the right-address immediate at byte offset 12, and every
subsequent call patches exactly those two offsets — the buffer keeps its
length and every byte outside the two operand slots stays equal to the
originally emitted skeleton. -/
theorem add_operand_offsets_fixed
    (c : JITCalculator) (hc : c.add_code.code = [])
    (mem : Nat → Nat) (la ra : Nat) (pOk : Bool)
    (c' : JITCalculator) (la0 ra0 : Nat) (mm : Option (List Nat × Prot))
    (hc' : c'.add_code = ⟨templateCode la0 ra0, mm⟩)
    (mem' : Nat → Nat) (la2 ra2 : Nat) (pOk' : Bool) :
    (c.add mem la ra true pOk).1.add_code.code = templateCode la ra ∧
    ((c.add mem la ra true pOk).1.add_code.code.drop 2).take 8 = u64le la ∧
    ((c.add mem la ra true pOk).1.add_code.code.drop 12).take 8 = u64le ra ∧
    (c'.add mem' la2 ra2 true pOk').1.add_code.code = templateCode la2 ra2 ∧
    ((c'.add mem' la2 ra2 true pOk').1.add_code.code.drop 2).take 8 = u64le la2 ∧
    ((c'.add mem' la2 ra2 true pOk').1.add_code.code.drop 12).take 8 = u64le ra2 ∧
    (c'.add mem' la2 ra2 true pOk').1.add_code.code.length = c'.add_code.code.length ∧
    (∀ i, i < 2 ∨ (10 ≤ i ∧ i < 12) ∨ 20 ≤ i →
      (c'.add mem' la2 ra2 true pOk').1.add_code.code[i]? = c'.add_code.code[i]?) := by
  have e1 := add_first_call c hc mem la ra pOk
  have e2 := add_patch_call c' la0 ra0 mm hc' mem' la2 ra2 pOk'
  rw [e1, e2, hc']
  refine ⟨rfl, (templateCode_segments la ra).2.1, (templateCode_segments la ra).2.2.2.1,
    rfl, (templateCode_segments la2 ra2).2.1, (templateCode_segments la2 ra2).2.2.2.1,
    by rw [length_templateCode, length_templateCode], ?_⟩
  intro i hi
  exact templateCode_outside_operands la0 ra0 la2 ra2 i hi

/-- Witness for C3 with concrete calculators and addresses. -/
theorem add_operand_offsets_fixed_witness :
    ((⟨⟨templateCode 5 6, none⟩⟩ : JITCalculator).add (fun _ => 0) 7 8 true true).1.add_code.code =
      templateCode 7 8 :=
  (add_operand_offsets_fixed JITCalculator.new rfl (fun _ => 0) 1 2 true
    ⟨⟨templateCode 5 6, none⟩⟩ 5 6 none rfl (fun _ => 0) 7 8 true).2.2.2.1

/-- C4: with `k + 8 ≤ length`, patching a u64 at offset `k` succeeds, keeps the
length, writes the little-endian encoding into `[k, k + 8)`, and leaves every
byte outside that range unchanged. -/
theorem write_u64_at_in_bounds (em : ExecutableMemory) (v k : Nat)
    (hk : k + 8 ≤ em.code.length) :
    ∃ out, em.write_u64_at v k = some out ∧
      out.code.length = em.code.length ∧
      (∀ i, i < k → out.code[i]? = em.code[i]?) ∧
      (∀ i, k ≤ i → i < k + 8 → out.code[i]? = (u64le v)[i - k]?) ∧
      (∀ i, k + 8 ≤ i → out.code[i]? = em.code[i]?) := by
  obtain ⟨out, hsome, _, hlen, hlow, hmid, hhigh⟩ :=
    write_code_at_spec em (u64le v) k (by omega)
  refine ⟨out, hsome, hlen, hlow, ?_, ?_⟩
  · intro i h1 h2
    exact hmid i h1 (by rw [length_u64le]; omega) (by omega)
  · intro i h
    exact hhigh i (by rw [length_u64le]; omega)

/-- Witness for C4 on an 8-byte buffer at offset 0. -/
theorem write_u64_at_in_bounds_witness :
    ∃ out, (⟨[0, 0, 0, 0, 0, 0, 0, 0], none⟩ : ExecutableMemory).write_u64_at 5 0 = some out ∧
      out.code.length = (⟨[0, 0, 0, 0, 0, 0, 0, 0], none⟩ : ExecutableMemory).code.length ∧
      (∀ i, i < 0 →
        out.code[i]? = (⟨[0, 0, 0, 0, 0, 0, 0, 0], none⟩ : ExecutableMemory).code[i]?) ∧
      (∀ i, 0 ≤ i → i < 0 + 8 → out.code[i]? = (u64le 5)[i - 0]?) ∧
      (∀ i, 0 + 8 ≤ i →
        out.code[i]? = (⟨[0, 0, 0, 0, 0, 0, 0, 0], none⟩ : ExecutableMemory).code[i]?) :=
  write_u64_at_in_bounds ⟨[0, 0, 0, 0, 0, 0, 0, 0], none⟩ 5 0 (by norm_num)

/-- C5 counterexample: an out-of-range patch (offset 0 into a 4-byte buffer)
does not fail — it returns normally with the buffer modified, so no
bounds error is raised and the buffer is not left unmodified. -/
theorem write_u64_at_overflow_cex :
    (⟨[0, 0, 0, 0], none⟩ : ExecutableMemory).write_u64_at 257 0 =
      some ⟨[1, 1, 0, 0], none⟩ ∧
    ([1, 1, 0, 0] : List Nat) ≠ [0, 0, 0, 0] := by
  decide

/-- C5 (amended): with `k + 8 > length` no bounds error exists: when
`k ≤ length` the patch returns normally having silently written only the first
`length - k` encoded bytes (a partial patch that can modify the buffer), and
when `k > length` the call panics on slice indexing. -/
theorem write_u64_at_overflow (em : ExecutableMemory) (v k : Nat)
    (hk : em.code.length < k + 8) :
    (k ≤ em.code.length →
      ∃ out, em.write_u64_at v k = some out ∧
        out.code.length = em.code.length ∧
        (∀ i, i < k → out.code[i]? = em.code[i]?) ∧
        (∀ i, k ≤ i → i < em.code.length → out.code[i]? = (u64le v)[i - k]?)) ∧
    (em.code.length < k → em.write_u64_at v k = none) := by
  constructor
  · intro hle
    obtain ⟨out, hsome, _, hlen, hlow, hmid, _⟩ :=
      write_code_at_spec em (u64le v) k hle
    exact ⟨out, hsome, hlen, hlow, fun i h1 h2 =>
      hmid i h1 (by rw [length_u64le]; omega) h2⟩
  · intro h
    exact write_code_at_oob em (u64le v) k h

/-- Witness for the amended C5: truncated patch on a 4-byte buffer. -/
theorem write_u64_at_overflow_witness :
    ∃ out, (⟨[0, 0, 0, 0], none⟩ : ExecutableMemory).write_u64_at 257 0 = some out ∧
      out.code.length = (⟨[0, 0, 0, 0], none⟩ : ExecutableMemory).code.length ∧
      (∀ i, i < 0 → out.code[i]? = (⟨[0, 0, 0, 0], none⟩ : ExecutableMemory).code[i]?) ∧
      (∀ i, 0 ≤ i → i < (⟨[0, 0, 0, 0], none⟩ : ExecutableMemory).code.length →
        out.code[i]? = (u64le 257)[i - 0]?) :=
  (write_u64_at_overflow ⟨[0, 0, 0, 0], none⟩ 257 0 (by norm_num)).1 (by norm_num)

/-- C6: `write_u64` appends exactly 8 bytes and decoding those 8 bytes as a
little-endian u64 reproduces the original value. -/
theorem write_u64_append_roundtrip (em : ExecutableMemory) (v : Nat) (hv : v < 2 ^ 64) :
    (em.write_u64 v).code = em.code ++ u64le v ∧
    (em.write_u64 v).code.length = em.code.length + 8 ∧
    leDecodeList ((em.write_u64 v).code.drop em.code.length) = v := by
  refine ⟨rfl, ?_, ?_⟩
  · simp [ExecutableMemory.write_u64, ExecutableMemory.write_code, length_u64le]
  · have h : (em.write_u64 v).code = em.code ++ u64le v := rfl
    rw [h, List.drop_left, leDecodeList_u64le v hv]

/-- Witness for C6 at value 3 on the empty buffer. -/
theorem write_u64_append_roundtrip_witness :
    (ExecutableMemory.new.write_u64 3).code = ExecutableMemory.new.code ++ u64le 3 ∧
    (ExecutableMemory.new.write_u64 3).code.length = ExecutableMemory.new.code.length + 8 ∧
    leDecodeList ((ExecutableMemory.new.write_u64 3).code.drop ExecutableMemory.new.code.length) =
      3 :=
  write_u64_append_roundtrip ExecutableMemory.new 3 (by norm_num)

/-- C7: invoking before materialization is unrepresentable in this design —
`execute` fuses the two, so every trace that contains an invoke begins with the
allocation, the copy-in of exactly the logical bytes, and the protection
transition; a region is never invoked without having been materialized first. -/
theorem invoke_only_after_materialize (em : ExecutableMemory) (mem : Nat → Nat)
    (aOk pOk : Bool)
    (h : Event.invoke ∈ (em.execute mem aOk pOk).2.2) :
    (em.execute mem aOk pOk).2.2 =
      [Event.alloc em.code.length Prot.ReadWrite true, Event.copyIn em.code,
       Event.setProt Prot.ReadExecute pOk, Event.invoke] := by
  cases aOk with
  | true => rfl
  | false => simp [ExecutableMemory.execute] at h

/-- Witness for C7 on a one-byte ret buffer. -/
theorem invoke_only_after_materialize_witness :
    ((⟨[0xc3], none⟩ : ExecutableMemory).execute (fun _ => 0) true true).2.2 =
      [Event.alloc (⟨[0xc3], none⟩ : ExecutableMemory).code.length Prot.ReadWrite true,
       Event.copyIn (⟨[0xc3], none⟩ : ExecutableMemory).code,
       Event.setProt Prot.ReadExecute true, Event.invoke] :=
  invoke_only_after_materialize ⟨[0xc3], none⟩ (fun _ => 0) true true (by decide)

/-- C8 counterexample: a failing protection transition is silently ignored —
the call still invokes the region and returns normally, so the failure is not
surfaced to the caller as any error. -/
theorem protection_failure_ignored_cex :
    ((⟨[0xc3], none⟩ : ExecutableMemory).execute (fun _ => 0) true false).2.1 =
      ExecResult.returned (some 0) ∧
    Event.invoke ∈
      ((⟨[0xc3], none⟩ : ExecutableMemory).execute (fun _ => 0) true false).2.2 := by
  decide

/-- C8 (amended): no ResourceError is ever produced — an allocation failure
aborts via panic (the unwrap), and a protection-transition failure does not
change the result of the call at all: the code is invoked regardless.  Nothing
is retried, logged, or recovered. -/
theorem platform_failure_behavior (em : ExecutableMemory) (mem : Nat → Nat)
    (pOk pOk' : Bool) :
    (em.execute mem false pOk).2.1 = ExecResult.panicked ∧
    (em.execute mem true pOk).2.1 = (em.execute mem true pOk').2.1 ∧
    Event.invoke ∈ (em.execute mem true pOk).2.2 := by
  refine ⟨rfl, rfl, ?_⟩
  simp [ExecutableMemory.execute]

/-- C9: `execute` never changes the logical byte sequence, and (when the
allocation succeeds) the region it runs holds a fresh copy of exactly those
bytes — the logical sequence stays authoritative across patches and
executions. -/
theorem execute_preserves_logical_bytes (em : ExecutableMemory) (mem : Nat → Nat)
    (aOk pOk : Bool) :
    (em.execute mem aOk pOk).1 = em ∧
    (aOk = true → Event.copyIn em.code ∈ (em.execute mem aOk pOk).2.2) := by
  constructor
  · cases aOk <;> rfl
  · intro ha
    subst ha
    simp [ExecutableMemory.execute]

/-- Witness for C9 on a one-byte ret buffer. -/
theorem execute_preserves_logical_bytes_witness :
    ((⟨[0xc3], none⟩ : ExecutableMemory).execute (fun _ => 0) true false).1 =
      (⟨[0xc3], none⟩ : ExecutableMemory) ∧
    Event.copyIn [0xc3] ∈
      ((⟨[0xc3], none⟩ : ExecutableMemory).execute (fun _ => 0) true false).2.2 :=
  ⟨(execute_preserves_logical_bytes ⟨[0xc3], none⟩ (fun _ => 0) true false).1,
   (execute_preserves_logical_bytes ⟨[0xc3], none⟩ (fun _ => 0) true false).2 rfl⟩

/-- C10: `write_u64_at` is total exactly on positions not exceeding the buffer
length: for `k ≤ length` it returns normally, writing exactly
`min 8 (length - k)` bytes of the encoding (silently truncating, no error);
for `k > length` it panics on slice indexing. -/
theorem write_u64_at_total (em : ExecutableMemory) (v k : Nat) :
    (k ≤ em.code.length →
      ∃ out, em.write_u64_at v k = some out ∧
        out.code.length = em.code.length ∧
        (∀ i, i < k → out.code[i]? = em.code[i]?) ∧
        (∀ i, k ≤ i → i < k + min 8 (em.code.length - k) →
          out.code[i]? = (u64le v)[i - k]?) ∧
        (∀ i, k + min 8 (em.code.length - k) ≤ i → out.code[i]? = em.code[i]?)) ∧
    (em.code.length < k → em.write_u64_at v k = none) := by
  constructor
  · intro hk
    obtain ⟨out, hsome, _, hlen, hlow, hmid, hhigh⟩ :=
      write_code_at_spec em (u64le v) k hk
    refine ⟨out, hsome, hlen, hlow, ?_, ?_⟩
    · intro i h1 h2
      exact hmid i h1 (by rw [length_u64le]; omega) (by omega)
    · intro i h
      rcases Nat.lt_or_ge i (k + 8) with h8 | h8
      · have hi : em.code.length ≤ i := by omega
        have o1 : out.code[i]? = none := by
          rw [List.getElem?_eq_none_iff]; omega
        have o2 : em.code[i]? = none := by
          rw [List.getElem?_eq_none_iff]; omega
        rw [o1, o2]
      · exact hhigh i (by rw [length_u64le]; omega)
  · intro hk
    exact write_code_at_oob em (u64le v) k hk

/-- Witness for C10: truncated write on a 3-byte buffer and a panicking write
past the end. -/
theorem write_u64_at_total_witness :
    (∃ out, (⟨[0, 0, 0], none⟩ : ExecutableMemory).write_u64_at 5 1 = some out ∧
      out.code.length = (⟨[0, 0, 0], none⟩ : ExecutableMemory).code.length ∧
      (∀ i, i < 1 → out.code[i]? = (⟨[0, 0, 0], none⟩ : ExecutableMemory).code[i]?) ∧
      (∀ i, 1 ≤ i → i < 1 + min 8 ((⟨[0, 0, 0], none⟩ : ExecutableMemory).code.length - 1) →
        out.code[i]? = (u64le 5)[i - 1]?) ∧
      (∀ i, 1 + min 8 ((⟨[0, 0, 0], none⟩ : ExecutableMemory).code.length - 1) ≤ i →
        out.code[i]? = (⟨[0, 0, 0], none⟩ : ExecutableMemory).code[i]?)) ∧
    (⟨[0, 0, 0], none⟩ : ExecutableMemory).write_u64_at 5 5 = none :=
  ⟨(write_u64_at_total ⟨[0, 0, 0], none⟩ 5 1).1 (by norm_num),
   (write_u64_at_total ⟨[0, 0, 0], none⟩ 5 5).2 (by norm_num)⟩
